import Mathlib

/-!
Shallow embedding of the glu repository (a TypeScript CLI for stacked-diff
git workflows) and proofs about its specification claims.

Messages are modelled as `List Char`; the JS regular expressions used by
the glu-id utilities are embedded as explicit leftmost-match scanners.
-/

set_option maxRecDepth 4000
set_option linter.unusedVariables false

/-! ## glu-id utilities (src/utils/glu-id.ts) -/

/-- JS `\w` character class: `[A-Za-z0-9_]`. -/
def isWordChar (c : Char) : Bool :=
  c.isAlpha || c.isDigit || c = '_'

/-- Characters removed by JS `String.prototype.trim` (ASCII whitespace plus
the common Unicode space/line separators). -/
def isJsWhitespace (c : Char) : Bool :=
  c = ' ' || c = '\t' || c = '\n' || c = '\r' || c = '\x0b' || c = '\x0c' ||
  c = '\u00a0' || c = '\u2028' || c = '\u2029' || c = '\ufeff'

/-- `message.trimStart()`. -/
def trimLeft (s : List Char) : List Char :=
  s.dropWhile isJsWhitespace

/-- `message.trimEnd()`. -/
def trimRight (s : List Char) : List Char :=
  (s.reverse.dropWhile isJsWhitespace).reverse

/-- `message.trim()`. -/
def trim (s : List Char) : List Char :=
  trimRight (trimLeft s)

/-- The literal text `Glu-ID: glu_` that both glu-id regexes must find. -/
def gluMarker : List Char :=
  ['G', 'l', 'u', '-', 'I', 'D', ':', ' ', 'g', 'l', 'u', '_']

/-- The literal text `glu_` opening every captured glu id. -/
def gluHead : List Char := ['g', 'l', 'u', '_']

/-- One attempt of the regex `Glu-ID: (glu_\w+)` anchored at the start of
`s`: the literal `Glu-ID: glu_` must be present and a nonempty greedy run
of `\w` characters must follow; the capture group is `glu_` plus that run. -/
def matchGluAt (s : List Char) : Option (List Char) :=
  if gluMarker.isPrefixOf s then
    let run := (s.drop gluMarker.length).takeWhile isWordChar
    if run.isEmpty then none else some (gluHead ++ run)
  else none

/-- Leftmost match of `Glu-ID: (glu_\w+)` in `s` (JS `String.match` with a
non-global regex), returning the capture group. -/
def findGluMatch : List Char → Option (List Char)
  | [] => none
  | c :: rest =>
    match matchGluAt (c :: rest) with
    | some cap => some cap
    | none => findGluMatch rest

/-- `extractGluId` from src/utils/glu-id.ts: `match?.[1] || null`. The
capture group is nonempty whenever the regex matches, so the `|| null`
fallback never downgrades a successful match. -/
def extractGluId (commitMessage : List Char) : Option (List Char) :=
  findGluMatch commitMessage

/-- `hasGluId` from src/utils/glu-id.ts. -/
def hasGluId (commitMessage : List Char) : Bool :=
  (extractGluId commitMessage).isSome

/-- The text `\n\nGlu-ID: ` appended in front of the id by `addGluIdToMessage`. -/
def trailerText : List Char :=
  ['\n', '\n', 'G', 'l', 'u', '-', 'I', 'D', ':', ' ']

/-- `addGluIdToMessage` from src/utils/glu-id.ts. The impure call
`generateGluId()` used when no id is supplied is passed in as `gen`. -/
def addGluIdToMessage (commitMessage : List Char) (gluId : Option (List Char))
    (gen : List Char) : List Char :=
  if hasGluId commitMessage then commitMessage
  else trim commitMessage ++ (trailerText ++ gluId.getD gen)

/-- Length of one attempt of `Glu-ID: glu_\w+` (the core of the removal
regex) anchored at the start of `s`; shares the matcher of the extraction
regex, whose capture is `glu_` plus the run, so the matched literal length
is `8 + capture.length`. -/
def gluLitRun (s : List Char) : Option Nat :=
  (matchGluAt s).map (fun cap => 8 + cap.length)

/-- One attempt of the regex `(\n\n|\n)Glu-ID: glu_\w+` anchored at the
start of `s`, returning the matched length. The alternation prefers `\n\n`
and backtracks to a single `\n` at the same start position. -/
def matchRemoveAt (s : List Char) : Option Nat :=
  match s with
  | c :: rest =>
    if c = '\n' then
      match rest with
      | d :: rest2 =>
        if d = '\n' then
          match gluLitRun rest2 with
          | some k => some (2 + k)
          | none => (gluLitRun rest).map (fun k => 1 + k)
        else (gluLitRun rest).map (fun k => 1 + k)
      | [] => (gluLitRun rest).map (fun k => 1 + k)
    else none
  | [] => none

/-- JS `String.replace` with a non-global regex: delete the leftmost match
of `(\n\n|\n)Glu-ID: glu_\w+` (replacement is the empty string). -/
def removeFirst : List Char → List Char
  | [] => []
  | c :: rest =>
    match matchRemoveAt (c :: rest) with
    | some k => (c :: rest).drop k
    | none => c :: removeFirst rest

/-- `removeGluIdFromMessage` from src/utils/glu-id.ts. -/
def removeGluIdFromMessage (commitMessage : List Char) : List Char :=
  removeFirst commitMessage

/-- Base36 digits (`0`-`9`, `a`-`z`) produced by `Date.now().toString(36)`. -/
def isBase36Char (c : Char) : Bool :=
  c.isDigit || c.isLower

/-- Lowercase hex digits (`0`-`9`, `a`-`f`) produced by
`crypto.randomBytes(6).toString("hex")`. -/
def isLowerHexChar (c : Char) : Bool :=
  c.isDigit || (c.isLower && c ≤ 'f')

/-- Shape of ids produced by `generateGluId`:
`glu_<base36 timestamp>_<12 hex chars>`. -/
def GluIdFormat (pid : List Char) : Prop :=
  ∃ t r, pid = gluHead ++ t ++ '_' :: r ∧ t ≠ [] ∧
    (∀ c ∈ t, isBase36Char c = true) ∧ r.length = 12 ∧
    (∀ c ∈ r, isLowerHexChar c = true)

/-! ### Lemmas about the embedded glu-id regexes -/

theorem matchGluAt_nil : matchGluAt [] = none := by decide

theorem matchGluAt_not_marker {s : List Char}
    (h : gluMarker.isPrefixOf s = false) : matchGluAt s = none := by
  simp [matchGluAt, h]

theorem matchGluAt_marker_append (rest : List Char) :
    matchGluAt (gluMarker ++ rest) =
      if (rest.takeWhile isWordChar).isEmpty then none
      else some (gluHead ++ rest.takeWhile isWordChar) := by
  have hp : gluMarker.isPrefixOf (gluMarker ++ rest) = true :=
    List.isPrefixOf_iff_prefix.mpr (List.prefix_append _ _)
  simp [matchGluAt, hp, List.drop_left]

theorem matchGluAt_head_ne {c : Char} {s : List Char} (h : c ≠ 'G') :
    matchGluAt (c :: s) = none := by
  apply matchGluAt_not_marker
  simp [gluMarker, List.isPrefixOf]
  intro h'
  exact absurd h'.symm h

theorem matchGluAt_marker_append_cons (c : Char) (rest : List Char) :
    matchGluAt (gluMarker ++ c :: rest) =
      if isWordChar c then some (gluHead ++ c :: rest.takeWhile isWordChar)
      else none := by
  rw [matchGluAt_marker_append]
  cases hw : isWordChar c <;> simp [List.takeWhile_cons, hw]

theorem prefix_append_cons {p : List Char} {c : Char} (hc : c ∉ p) :
    ∀ {s r : List Char}, p <+: s ++ c :: r → p <+: s := by
  induction p with
  | nil => intro s r _; exact List.nil_prefix
  | cons a p ih =>
    intro s r h
    cases s with
    | nil =>
      rw [List.nil_append, List.cons_prefix_cons] at h
      exact absurd (h.1 ▸ List.mem_cons_self a p) hc
    | cons b s =>
      rw [List.cons_append] at h
      rw [List.cons_prefix_cons] at h ⊢
      exact ⟨h.1, ih (fun hm => hc (List.mem_cons_of_mem a hm)) h.2⟩

theorem marker_eq_append {s : List Char}
    (hp : gluMarker.isPrefixOf s = true) : ∃ t, s = gluMarker ++ t := by
  rcases List.isPrefixOf_iff_prefix.mp hp with ⟨t, ht⟩
  exact ⟨t, ht.symm⟩

theorem matchGluAt_extend {s : List Char} (w : List Char)
    (h : matchGluAt s ≠ none) : matchGluAt (s ++ w) ≠ none := by
  cases hp : gluMarker.isPrefixOf s with
  | false => exact absurd (matchGluAt_not_marker hp) h
  | true =>
    obtain ⟨rest, rfl⟩ := marker_eq_append hp
    rw [matchGluAt_marker_append] at h
    cases rest with
    | nil => simp at h
    | cons c rest =>
      rw [List.append_assoc, List.cons_append, matchGluAt_marker_append_cons]
      cases hw : isWordChar c with
      | false => simp [List.takeWhile_cons, hw] at h
      | true => simp

theorem matchGluAt_append_nl {s : List Char} (r : List Char)
    (h : matchGluAt s = none) : matchGluAt (s ++ '\n' :: r) = none := by
  cases hp : gluMarker.isPrefixOf s with
  | true =>
    obtain ⟨rest, rfl⟩ := marker_eq_append hp
    rw [matchGluAt_marker_append] at h
    cases rest with
    | nil =>
      rw [List.append_nil, matchGluAt_marker_append_cons,
        if_neg (by simp [show isWordChar '\n' = false from by decide])]
    | cons c rest =>
      cases hw : isWordChar c with
      | true => simp [List.takeWhile_cons, hw] at h
      | false =>
        rw [List.append_assoc, List.cons_append, matchGluAt_marker_append_cons,
          if_neg (by simp [hw])]
  | false =>
    apply matchGluAt_not_marker
    cases hp2 : gluMarker.isPrefixOf (s ++ '\n' :: r) with
    | false => rfl
    | true =>
      have h2 := prefix_append_cons (p := gluMarker) (c := '\n') (by decide)
        (List.isPrefixOf_iff_prefix.mp hp2)
      have h3 := List.isPrefixOf_iff_prefix.mpr h2
      rw [hp] at h3
      exact absurd h3 (by simp)

theorem findGluMatch_cons_of_none {c : Char} {rest : List Char}
    (h : matchGluAt (c :: rest) = none) :
    findGluMatch (c :: rest) = findGluMatch rest := by
  simp [findGluMatch, h]

theorem findGluMatch_cons_of_some {c : Char} {rest cap : List Char}
    (h : matchGluAt (c :: rest) = some cap) :
    findGluMatch (c :: rest) = some cap := by
  simp [findGluMatch, h]

theorem findGluMatch_of_matchGluAt {s cap : List Char} (hs : s ≠ [])
    (h : matchGluAt s = some cap) : findGluMatch s = some cap := by
  cases s with
  | nil => exact absurd rfl hs
  | cons c rest => exact findGluMatch_cons_of_some h

theorem findGluMatch_cons_none {c : Char} {rest : List Char} :
    findGluMatch (c :: rest) = none ↔
      matchGluAt (c :: rest) = none ∧ findGluMatch rest = none := by
  cases h : matchGluAt (c :: rest) <;> simp [findGluMatch, h]

theorem findGluMatch_append_nl {s : List Char} (r : List Char)
    (h : findGluMatch s = none) :
    findGluMatch (s ++ '\n' :: r) = findGluMatch ('\n' :: r) := by
  induction s with
  | nil => rfl
  | cons c s ih =>
    obtain ⟨h1, h2⟩ := findGluMatch_cons_none.mp h
    rw [List.cons_append]
    have h1' : matchGluAt (c :: (s ++ '\n' :: r)) = none := by
      have := matchGluAt_append_nl r h1
      rwa [List.cons_append] at this
    rw [findGluMatch_cons_of_none h1']
    exact ih h2

theorem matchGluAt_of_suffix {s u : List Char} (h : findGluMatch s = none)
    (hu : u <:+ s) : matchGluAt u = none := by
  induction s with
  | nil => rw [List.suffix_nil.mp hu]; exact matchGluAt_nil
  | cons c s ih =>
    obtain ⟨h1, h2⟩ := findGluMatch_cons_none.mp h
    rcases List.suffix_cons_iff.mp hu with rfl | hu'
    · exact h1
    · exact ih h2 hu'

theorem findGluMatch_ne_none_suffix {s : List Char}
    (h : findGluMatch s ≠ none) :
    ∃ u, u <:+ s ∧ matchGluAt u ≠ none := by
  induction s with
  | nil => exact absurd rfl h
  | cons c s ih =>
    cases hm : matchGluAt (c :: s) with
    | some cap => exact ⟨c :: s, List.suffix_rfl, by simp [hm]⟩
    | none =>
      have h2 : findGluMatch s ≠ none := by
        intro hn
        exact h (by rw [findGluMatch_cons_of_none hm]; exact hn)
      obtain ⟨u, hu, hmu⟩ := ih h2
      exact ⟨u, hu.trans (List.suffix_cons c s), hmu⟩

theorem trimRight_append (s : List Char) : ∃ w, s = trimRight s ++ w := by
  refine ⟨(s.reverse.takeWhile isJsWhitespace).reverse, ?_⟩
  calc s = s.reverse.reverse := (List.reverse_reverse s).symm
    _ = ((s.reverse.takeWhile isJsWhitespace) ++
          (s.reverse.dropWhile isJsWhitespace)).reverse := by
        rw [List.takeWhile_append_dropWhile]
    _ = (s.reverse.dropWhile isJsWhitespace).reverse ++
          (s.reverse.takeWhile isJsWhitespace).reverse := by
        rw [List.reverse_append]
    _ = trimRight s ++ (s.reverse.takeWhile isJsWhitespace).reverse := rfl

theorem trimLeft_suffix (s : List Char) : trimLeft s <:+ s :=
  ⟨s.takeWhile isJsWhitespace, List.takeWhile_append_dropWhile _ _⟩

theorem findGluMatch_trim_none {m : List Char} (h : findGluMatch m = none) :
    findGluMatch (trim m) = none := by
  by_contra hne
  obtain ⟨u, hu, hmu⟩ := findGluMatch_ne_none_suffix hne
  obtain ⟨w, hw⟩ := trimRight_append (trimLeft m)
  obtain ⟨a, ha⟩ := hu
  have h1 : u ++ w <:+ trimLeft m := by
    refine ⟨a, ?_⟩
    rw [← List.append_assoc, ha]
    exact hw.symm
  have h2 : u ++ w <:+ m := h1.trans (trimLeft_suffix m)
  exact (matchGluAt_extend w hmu) (matchGluAt_of_suffix h h2)

theorem hasGluId_false_iff {m : List Char} :
    hasGluId m = false ↔ findGluMatch m = none := by
  unfold hasGluId extractGluId
  cases h : findGluMatch m <;> simp [h]

theorem isWordChar_of_base36 {c : Char} (h : isBase36Char c = true) :
    isWordChar c = true := by
  simp [isBase36Char] at h
  simp [isWordChar, Char.isAlpha]
  tauto

theorem isWordChar_of_lowerHex {c : Char} (h : isLowerHexChar c = true) :
    isWordChar c = true := by
  simp [isLowerHexChar] at h
  simp [isWordChar, Char.isAlpha]
  tauto

theorem gluIdFormat_tail {pid : List Char} (h : GluIdFormat pid) :
    ∃ tail, pid = gluHead ++ tail ∧ tail ≠ [] ∧
      ∀ c ∈ tail, isWordChar c = true := by
  obtain ⟨t, r, hpid, _, hbc, _, hhex⟩ := h
  refine ⟨t ++ '_' :: r, by rw [hpid, List.append_assoc], by simp, ?_⟩
  intro c hc
  rcases List.mem_append.mp hc with hc | hc
  · exact isWordChar_of_base36 (hbc c hc)
  · rcases List.mem_cons.mp hc with rfl | hc
    · decide
    · exact isWordChar_of_lowerHex (hhex c hc)

theorem matchGluAt_marker {tail : List Char} (hne : tail ≠ [])
    (hw : ∀ c ∈ tail, isWordChar c = true) :
    matchGluAt (gluMarker ++ tail) = some (gluHead ++ tail) := by
  rw [matchGluAt_marker_append, List.takeWhile_eq_self_iff.mpr hw]
  cases tail with
  | nil => exact absurd rfl hne
  | cons c t => simp

theorem trailer_assemble (tail : List Char) :
    trailerText ++ (gluHead ++ tail) = '\n' :: '\n' :: (gluMarker ++ tail) := rfl

theorem extract_roundtrip {m pid : List Char} (g : List Char)
    (hm : hasGluId m = false) (hp : GluIdFormat pid) :
    extractGluId (addGluIdToMessage m (some pid) g) = some pid := by
  obtain ⟨tail, rfl, hne, hw⟩ := gluIdFormat_tail hp
  have h0 : findGluMatch m = none := hasGluId_false_iff.mp hm
  have h1 := findGluMatch_trim_none h0
  unfold addGluIdToMessage
  rw [if_neg (by simp [hm])]
  show findGluMatch (trim m ++ ('\n' :: '\n' :: (gluMarker ++ tail))) = _
  rw [findGluMatch_append_nl _ h1,
    findGluMatch_cons_of_none (matchGluAt_head_ne (by decide)),
    findGluMatch_cons_of_none (matchGluAt_head_ne (by decide))]
  exact findGluMatch_of_matchGluAt (by simp [gluMarker]) (matchGluAt_marker hne hw)

theorem gluLitRun_head_ne {c : Char} {s : List Char} (h : c ≠ 'G') :
    gluLitRun (c :: s) = none := by
  simp [gluLitRun, matchGluAt_head_ne h]

theorem gluLitRun_append_nl {s : List Char} (r : List Char)
    (h : matchGluAt s = none) : gluLitRun (s ++ '\n' :: r) = none := by
  simp [gluLitRun, matchGluAt_append_nl r h]

theorem matchRemoveAt_of_ne_nl {c : Char} {rest : List Char} (h : c ≠ '\n') :
    matchRemoveAt (c :: rest) = none := by
  simp [matchRemoveAt, h]

theorem removeFirst_cons_of_none {c : Char} {rest : List Char}
    (h : matchRemoveAt (c :: rest) = none) :
    removeFirst (c :: rest) = c :: removeFirst rest := by
  simp [removeFirst, h]

theorem removeFirst_cons_of_some {c : Char} {rest : List Char} {k : Nat}
    (h : matchRemoveAt (c :: rest) = some k) :
    removeFirst (c :: rest) = (c :: rest).drop k := by
  simp [removeFirst, h]

theorem removeFirst_append_glu {s : List Char} (body : List Char)
    (h : findGluMatch s = none) :
    removeFirst (s ++ '\n' :: '\n' :: body) =
      s ++ removeFirst ('\n' :: '\n' :: body) := by
  induction s with
  | nil => rfl
  | cons c s ih =>
    obtain ⟨h1, h2⟩ := findGluMatch_cons_none.mp h
    rw [List.cons_append]
    have hnone : matchRemoveAt (c :: (s ++ '\n' :: '\n' :: body)) = none := by
      by_cases hc : c = '\n'
      · subst hc
        cases s with
        | nil =>
          have hg1 : gluLitRun ('\n' :: body) = none := gluLitRun_head_ne (by decide)
          have hg2 : gluLitRun ('\n' :: '\n' :: body) = none :=
            gluLitRun_head_ne (by decide)
          simp [matchRemoveAt, hg1, hg2]
        | cons b s =>
          by_cases hb : b = '\n'
          · subst hb
            have hs : matchGluAt s = none :=
              matchGluAt_of_suffix h
                ((List.suffix_cons '\n' s).trans (List.suffix_cons '\n' ('\n' :: s)))
            have hg1 : gluLitRun (s ++ '\n' :: '\n' :: body) = none :=
              gluLitRun_append_nl _ hs
            have hg2 : gluLitRun ('\n' :: (s ++ '\n' :: '\n' :: body)) = none :=
              gluLitRun_head_ne (by decide)
            simp [matchRemoveAt, hg1, hg2]
          · have hs : matchGluAt (b :: s) = none :=
              matchGluAt_of_suffix h (List.suffix_cons '\n' (b :: s))
            have hg : gluLitRun ((b :: s) ++ '\n' :: '\n' :: body) = none :=
              gluLitRun_append_nl _ hs
            rw [List.cons_append] at hg
            simp [matchRemoveAt, hb, hg]
      · exact matchRemoveAt_of_ne_nl hc
    rw [removeFirst_cons_of_none hnone, ih h2, List.cons_append]

theorem matchRemoveAt_trailer {tail : List Char} (hne : tail ≠ [])
    (hw : ∀ c ∈ tail, isWordChar c = true) :
    matchRemoveAt ('\n' :: '\n' :: (gluMarker ++ tail)) =
      some (14 + tail.length) := by
  have hg : gluLitRun (gluMarker ++ tail) = some (12 + tail.length) := by
    simp [gluLitRun, matchGluAt_marker hne hw, gluHead]
    omega
  simp [matchRemoveAt, hg]
  omega

theorem removeFirst_trailer {tail : List Char} (hne : tail ≠ [])
    (hw : ∀ c ∈ tail, isWordChar c = true) :
    removeFirst ('\n' :: '\n' :: (gluMarker ++ tail)) = [] := by
  rw [removeFirst_cons_of_some (matchRemoveAt_trailer hne hw)]
  have hlen : ('\n' :: '\n' :: (gluMarker ++ tail)).length = 14 + tail.length := by
    simp [gluMarker]
    omega
  rw [← hlen, List.drop_length]

theorem remove_roundtrip {m pid : List Char} (g : List Char)
    (hm : hasGluId m = false) (hp : GluIdFormat pid) :
    removeGluIdFromMessage (addGluIdToMessage m (some pid) g) = trim m := by
  obtain ⟨tail, rfl, hne, hw⟩ := gluIdFormat_tail hp
  have h0 : findGluMatch m = none := hasGluId_false_iff.mp hm
  have h1 := findGluMatch_trim_none h0
  unfold addGluIdToMessage removeGluIdFromMessage
  rw [if_neg (by simp [hm])]
  show removeFirst (trim m ++ ('\n' :: '\n' :: (gluMarker ++ tail))) = trim m
  rw [removeFirst_append_glu _ h1, removeFirst_trailer hne hw, List.append_nil]

theorem addGluId_of_hasGluId {x : List Char} (p : Option (List Char))
    (g : List Char) (h : hasGluId x = true) : addGluIdToMessage x p g = x := by
  unfold addGluIdToMessage
  rw [if_pos h]

theorem removeFirst_no_nl {m : List Char} (h : '\n' ∉ m) :
    removeFirst m = m := by
  induction m with
  | nil => rfl
  | cons c rest ih =>
    have hc : c ≠ '\n' := fun he => h (he ▸ List.mem_cons_self c rest)
    rw [removeFirst_cons_of_none (matchRemoveAt_of_ne_nl hc),
      ih (fun hm => h (List.mem_cons_of_mem c hm))]

/-- C2: for every message `m` lacking an identity and every pid of the
generated `glu_<base36>_<12 hex>` format, extracting after embedding
returns exactly the embedded pid, and stripping after embedding returns
the whitespace-normalized (trimmed) original message: embed and strip are
exact inverses up to trimming on messages without an identity. -/
theorem embed_strip_roundtrip (m pid g : List Char)
    (hm : hasGluId m = false) (hp : GluIdFormat pid) :
    extractGluId (addGluIdToMessage m (some pid) g) = some pid ∧
    removeGluIdFromMessage (addGluIdToMessage m (some pid) g) = trim m :=
  ⟨extract_roundtrip g hm hp, remove_roundtrip g hm hp⟩

theorem embed_strip_roundtrip_witness :
    hasGluId "  fix bug\n".toList = false ∧
    extractGluId (addGluIdToMessage "  fix bug\n".toList
        (some "glu_k8j5x6h48_a1b2c3d4e5f6".toList) []) =
      some "glu_k8j5x6h48_a1b2c3d4e5f6".toList ∧
    removeGluIdFromMessage (addGluIdToMessage "  fix bug\n".toList
        (some "glu_k8j5x6h48_a1b2c3d4e5f6".toList) []) =
      trim "  fix bug\n".toList := by
  have h := embed_strip_roundtrip "  fix bug\n".toList
    "glu_k8j5x6h48_a1b2c3d4e5f6".toList [] (by decide)
    ⟨"k8j5x6h48".toList, "a1b2c3d4e5f6".toList, by decide, by decide,
      by decide, by decide, by decide⟩
  exact ⟨by decide, h.1, h.2⟩

/-- C8 (amended): embedding is a no-op on any message that already has an
identity, for every optional pid argument, and embedding is idempotent
whenever the id embedded by the first call (the supplied pid, or the
generated one when none is supplied) is of the generated glu-id format. -/
theorem addGluId_noop_and_idempotent (m : List Char) (p1 : Option (List Char))
    (g1 : List Char) (p2 : Option (List Char)) (g2 : List Char) :
    (hasGluId m = true → addGluIdToMessage m p1 g1 = m) ∧
    (GluIdFormat (p1.getD g1) →
      addGluIdToMessage (addGluIdToMessage m p1 g1) p2 g2 =
        addGluIdToMessage m p1 g1) := by
  constructor
  · exact fun hm => addGluId_of_hasGluId p1 g1 hm
  · intro hfmt
    cases hm : hasGluId m with
    | true =>
      rw [addGluId_of_hasGluId p1 g1 hm, addGluId_of_hasGluId p2 g2 hm]
    | false =>
      have e : addGluIdToMessage m p1 g1 =
          addGluIdToMessage m (some (p1.getD g1)) g1 := by
        unfold addGluIdToMessage
        rw [if_neg (by simp [hm]), if_neg (by simp [hm])]
        rfl
      have hex := extract_roundtrip g1 hm hfmt
      have hhas : hasGluId (addGluIdToMessage m p1 g1) = true := by
        rw [e]
        unfold hasGluId
        rw [hex]
        rfl
      exact addGluId_of_hasGluId p2 g2 hhas

theorem addGluId_noop_and_idempotent_witness :
    addGluIdToMessage "a\n\nGlu-ID: glu_xyz".toList (some "x".toList) [] =
      "a\n\nGlu-ID: glu_xyz".toList ∧
    addGluIdToMessage
        (addGluIdToMessage "a".toList (some "glu_k9_aaaaaaaaaaaa".toList) [])
        none [] =
      addGluIdToMessage "a".toList (some "glu_k9_aaaaaaaaaaaa".toList) [] :=
  ⟨(addGluId_noop_and_idempotent "a\n\nGlu-ID: glu_xyz".toList
      (some "x".toList) [] none []).1 (by decide),
   (addGluId_noop_and_idempotent "a".toList (some "glu_k9_aaaaaaaaaaaa".toList)
      [] none []).2
    ⟨"k9".toList, "aaaaaaaaaaaa".toList, by decide, by decide, by decide,
      by decide, by decide⟩⟩

/-- C8 counterexample: with the supplied pid `"x"` (which does not embed a
recognizable identity) a second embed call appends a second trailer, so
`addGluIdToMessage (addGluIdToMessage m p1) p2 = addGluIdToMessage m p1`
fails for some `m`, `p1`, `p2`. -/
theorem addGluId_idempotent_counterexample :
    addGluIdToMessage (addGluIdToMessage ['a'] (some ['x']) [])
        (some ['y']) [] ≠ addGluIdToMessage ['a'] (some ['x']) [] := by
  decide

/-- C10: stripping removes an identity only when it is preceded by a
newline: on any message containing no newline at all (in particular one
whose `Glu-ID:` text starts at the very beginning of the message),
`removeGluIdFromMessage` returns the message unchanged, and
`extractGluId` / `hasGluId` still report the identity on the result. -/
theorem strip_requires_preceding_newline (m : List Char) (h : '\n' ∉ m) :
    removeGluIdFromMessage m = m ∧
    extractGluId (removeGluIdFromMessage m) = extractGluId m ∧
    (hasGluId m = true → hasGluId (removeGluIdFromMessage m) = true) := by
  have e : removeGluIdFromMessage m = m := removeFirst_no_nl h
  exact ⟨e, by rw [e], fun hh => by rw [e]; exact hh⟩

theorem strip_requires_preceding_newline_witness :
    hasGluId "Glu-ID: glu_abc123".toList = true ∧
    removeGluIdFromMessage "Glu-ID: glu_abc123".toList =
      "Glu-ID: glu_abc123".toList ∧
    hasGluId (removeGluIdFromMessage "Glu-ID: glu_abc123".toList) = true := by
  have h := strip_requires_preceding_newline "Glu-ID: glu_abc123".toList
    (by decide)
  exact ⟨by decide, h.1, h.2.2 (by decide)⟩

/-! ## Commits (src/core/types.ts) -/

/-- `Commit` from src/core/types.ts; the message body is the text the
glu-id utilities operate on. -/
structure Commit where
  hash : String
  subject : String
  body : List Char
deriving DecidableEq

/-- `IndexedCommit` from src/core/types.ts: a commit plus its position
in the unpushed range. -/
structure IndexedCommit where
  hash : String
  subject : String
  body : List Char
  gluIndex : Int
deriving DecidableEq

/-! ## GluIdService (src/services/glu-id-service.ts) -/

/-- `GluIdInjectionResult` from src/services/glu-id-service.ts. -/
structure GluIdInjectionResult where
  commitsProcessed : Nat
  commitsModified : Nat
deriving DecidableEq

/-- `GluIdService.ensureCommitsHaveGluIds`. The returned Bool records
whether the git-rewriting step `injectGluIds` was invoked (the only git
operation the method performs). -/
def ensureCommitsHaveGluIds (commits : List Commit) :
    GluIdInjectionResult × Bool :=
  if commits.isEmpty then (⟨0, 0⟩, false)
  else
    let commitsNeedingGluIds :=
      commits.filter fun commit => !(hasGluId commit.body)
    if commitsNeedingGluIds.isEmpty then (⟨commits.length, 0⟩, false)
    else (⟨commits.length, commitsNeedingGluIds.length⟩, true)

/-- C3: `ensureCommitsHaveGluIds` reports every commit as processed and
counts as modified exactly the commits whose message lacks an identity;
when no commit lacks one it performs no git operation and reports zero
modifications, so injecting a second time over an already-injected commit
set yields `commitsModified = 0`. -/
theorem ensureCommitsHaveGluIds_counts (commits : List Commit) :
    (ensureCommitsHaveGluIds commits).1.commitsProcessed = commits.length ∧
    (ensureCommitsHaveGluIds commits).1.commitsModified =
      (commits.filter fun c => !(hasGluId c.body)).length ∧
    ((∀ c ∈ commits, hasGluId c.body = true) →
      (ensureCommitsHaveGluIds commits).1.commitsModified = 0 ∧
      (ensureCommitsHaveGluIds commits).2 = false) := by
  unfold ensureCommitsHaveGluIds
  by_cases h0 : commits.isEmpty
  · have he : commits = [] := List.isEmpty_iff.mp h0
    subst he
    simp
  · rw [if_neg h0]
    by_cases h1 : (commits.filter fun c => !(hasGluId c.body)).isEmpty
    · rw [if_pos h1]
      have he := List.isEmpty_iff.mp h1
      exact ⟨rfl, by simp [he], fun _ => ⟨rfl, rfl⟩⟩
    · rw [if_neg h1]
      refine ⟨rfl, rfl, fun hall => ?_⟩
      exfalso
      apply h1
      rw [List.isEmpty_iff, List.filter_eq_nil_iff]
      intro a ha
      simp [hall a ha]

theorem ensureCommitsHaveGluIds_witness :
    (∀ c ∈ [(⟨"h1", "s1", "msg\n\nGlu-ID: glu_abc".toList⟩ : Commit)],
        hasGluId c.body = true) ∧
    (ensureCommitsHaveGluIds
        [(⟨"h1", "s1", "msg\n\nGlu-ID: glu_abc".toList⟩ : Commit)]
      ).1.commitsModified = 0 ∧
    (ensureCommitsHaveGluIds
        [(⟨"h1", "s1", "msg\n\nGlu-ID: glu_abc".toList⟩ : Commit)]).2 = false := by
  have h := (ensureCommitsHaveGluIds_counts
    [(⟨"h1", "s1", "msg\n\nGlu-ID: glu_abc".toList⟩ : Commit)]).2.2 (by decide)
  exact ⟨by decide, h.1, h.2⟩

/-! ## CherryPickService (src/services/cherry-pick-service.ts) -/

/-- The early-exit loop inside `isCommitsContiguous`: walk the indexes
after the first, requiring each to be exactly one more than the previous
(the source breaks out of the loop at the first violation). -/
def contiguousFrom (previousIndex : Int) : List Int → Bool
  | [] => true
  | currentIndex :: rest =>
    if currentIndex ≠ previousIndex + 1 then false
    else contiguousFrom currentIndex rest

/-- `CherryPickService.isCommitsContiguous`: returns `false` outright for
an empty or one-element list, otherwise checks consecutive increments. -/
def isCommitsContiguous (commits : List IndexedCommit) : Bool :=
  let indexes := commits.map fun c => c.gluIndex
  match indexes with
  | [] => false
  | [_] => false
  | i :: rest => contiguousFrom i rest

/-- Unbroken run in the words of the spec: each position is exactly one
more than the previous (vacuously true for short lists). -/
def SpecUnbrokenRun (commits : List IndexedCommit) : Prop :=
  List.Chain' (fun a b => b = a + 1) (commits.map fun c => c.gluIndex)

theorem contiguousFrom_iff_chain (l : List Int) :
    ∀ i, contiguousFrom i l = true ↔ List.Chain' (fun a b => b = a + 1) (i :: l) := by
  induction l with
  | nil => intro i; simp [contiguousFrom]
  | cons j l ih =>
    intro i
    by_cases hj : j = i + 1
    · subst hj
      simp [contiguousFrom, List.chain'_cons]
      exact ih (i + 1)
    · simp [contiguousFrom, hj, List.chain'_cons]

/-- C4 counterexample: on a one-element list the code returns `false`
although a single commit is vacuously an unbroken run, so `true ↔
unbroken run` fails. -/
theorem isCommitsContiguous_counterexample :
    ¬(isCommitsContiguous [(⟨"h1", "s1", [], (1 : Int)⟩ : IndexedCommit)] = true ↔
      SpecUnbrokenRun [(⟨"h1", "s1", [], (1 : Int)⟩ : IndexedCommit)]) := by
  intro h
  have h2 : SpecUnbrokenRun [(⟨"h1", "s1", [], (1 : Int)⟩ : IndexedCommit)] :=
    List.chain'_singleton _
  exact absurd (h.mpr h2) (by decide)

/-- C4 (amended): `isCommitsContiguous` returns `true` iff the list has at
least two commits and forms an unbroken run (each position exactly one more
than the previous); for empty and one-element lists it returns `false`
even though such lists are vacuously unbroken. -/
theorem isCommitsContiguous_iff (commits : List IndexedCommit) :
    isCommitsContiguous commits = true ↔
      2 ≤ commits.length ∧ SpecUnbrokenRun commits := by
  cases commits with
  | nil => simp [isCommitsContiguous]
  | cons c1 rest1 =>
    cases rest1 with
    | nil => simp [isCommitsContiguous]
    | cons c2 rest2 =>
      show contiguousFrom c1.gluIndex
        (c2.gluIndex :: rest2.map fun c => c.gluIndex) = true ↔ _
      rw [contiguousFrom_iff_chain]
      unfold SpecUnbrokenRun
      have hlen : 2 ≤ (c1 :: c2 :: rest2).length := by
        simp [List.length_cons]
      simp [hlen, List.map_cons]

/-- The structured `GitError` payloads thrown by
`CherryPickService.handleCherryPickError` (src/core/errors/git-error.ts):
`CHERRY_PICK_CONFLICT` and `CHERRY_PICK_FAILED` with their context
fields. -/
inductive GluGitError
  | cherryPickConflict (commit : String) (commitMessage : List Char)
      (commitIndex : Nat) (totalCommits : Nat) (appliedCount : Nat)
      (conflictFiles : List String)
  | cherryPickFailed (commit : String) (commitMessage : List Char)
      (commitIndex : Nat) (originalError : String)
deriving DecidableEq

/-- `CherryPickService.handleCherryPickError`. The git queries
`hasConflicts()` / `getConflictFiles()` made at the failure point are
passed in as parameters; the Bool result records whether
`abortCherryPick` was invoked before throwing. -/
def handleCherryPickError (hasConflicts : Bool) (conflictFiles : List String)
    (error : String) (commit : Commit) (index total : Nat) :
    GluGitError × Bool :=
  if hasConflicts then
    (.cherryPickConflict commit.hash commit.body (index + 1) total index
      conflictFiles, true)
  else
    (.cherryPickFailed commit.hash commit.body (index + 1) error, false)

/-- The indexed `for (const [index, commit] of commits.entries())` loop of
`cherryPickCommits`: `pick` is the outcome of `git.cherryPick` per commit;
the first failure is routed through `handleCherryPickError` and thrown. -/
def cherryPickLoop (pick : Commit → Except String Unit) (hasConflicts : Bool)
    (conflictFiles : List String) (total : Nat) :
    Nat → List Commit → Except (GluGitError × Bool) Unit
  | _, [] => .ok ()
  | index, commit :: rest =>
    match pick commit with
    | .ok _ => cherryPickLoop pick hasConflicts conflictFiles total (index + 1) rest
    | .error e =>
      .error (handleCherryPickError hasConflicts conflictFiles e commit index total)

/-- Everything `cherryPickCommits` can throw: the empty-list
`ValidationError` or a `GitError` from the loop (paired with whether an
abort was attempted). -/
inductive CherryPickThrow
  | validation (message : String) (targetBranch : String)
  | git (e : GluGitError) (abortAttempted : Bool)
deriving DecidableEq

/-- `CherryPickService.cherryPickCommits` (the `ensureOnBranch` step only
changes which branch is checked out and is not part of the thrown
values). -/
def cherryPickCommits (pick : Commit → Except String Unit)
    (hasConflicts : Bool) (conflictFiles : List String)
    (commits : List Commit) (targetBranch : String) :
    Except CherryPickThrow Unit :=
  if commits.isEmpty then
    .error (.validation "No commits to cherry-pick" targetBranch)
  else
    match cherryPickLoop pick hasConflicts conflictFiles commits.length 0 commits with
    | .ok _ => .ok ()
    | .error (e, abortAttempted) => .error (.git e abortAttempted)

theorem cherryPickLoop_append_ok (pick : Commit → Except String Unit)
    (hc : Bool) (cf : List String) (total : Nat) (pre : List Commit)
    (hpre : ∀ c ∈ pre, pick c = .ok ()) (rest : List Commit) :
    ∀ idx, cherryPickLoop pick hc cf total idx (pre ++ rest) =
      cherryPickLoop pick hc cf total (idx + pre.length) rest := by
  induction pre with
  | nil => intro idx; simp
  | cons c pre ih =>
    intro idx
    rw [List.cons_append]
    have hc0 : pick c = .ok () := hpre c (List.mem_cons_self c pre)
    show (match pick c with
      | .ok _ => cherryPickLoop pick hc cf total (idx + 1) (pre ++ rest)
      | .error e => .error (handleCherryPickError hc cf e c idx total)) = _
    rw [hc0]
    rw [ih (fun x hx => hpre x (List.mem_cons_of_mem c hx)) (idx + 1)]
    have he : idx + 1 + pre.length = idx + (c :: pre).length := by
      rw [List.length_cons]
      omega
    rw [he]

/-- C5: when applying an ordered commit list fails at 0-based index `i`
(all earlier commits applied cleanly), then with unmerged paths present the
orchestrator aborts the cherry-pick and throws a conflict error carrying
the failing commit, its 1-based position `i + 1`, the total count, the
number `i` of commits applied before it, and the conflicting files;
without unmerged paths it throws a failure error carrying the failing
commit, its 1-based position and the underlying error text, and no abort
is attempted. -/
theorem cherryPick_failure_spec (pick : Commit → Except String Unit)
    (hasConflicts : Bool) (conflictFiles : List String) (targetBranch : String)
    (pre : List Commit) (failing : Commit) (rest : List Commit) (e : String)
    (hpre : ∀ c ∈ pre, pick c = .ok ()) (hfail : pick failing = .error e) :
    (hasConflicts = true →
      cherryPickCommits pick hasConflicts conflictFiles
          (pre ++ failing :: rest) targetBranch =
        .error (.git (.cherryPickConflict failing.hash failing.body
          (pre.length + 1) (pre ++ failing :: rest).length pre.length
          conflictFiles) true)) ∧
    (hasConflicts = false →
      cherryPickCommits pick hasConflicts conflictFiles
          (pre ++ failing :: rest) targetBranch =
        .error (.git (.cherryPickFailed failing.hash failing.body
          (pre.length + 1) e) false)) := by
  have hloop : cherryPickLoop pick hasConflicts conflictFiles
      (pre ++ failing :: rest).length 0 (pre ++ failing :: rest) =
      .error (handleCherryPickError hasConflicts conflictFiles e failing
        pre.length (pre ++ failing :: rest).length) := by
    rw [cherryPickLoop_append_ok pick hasConflicts conflictFiles _ pre hpre
      (failing :: rest) 0]
    show (match pick failing with
      | .ok _ => cherryPickLoop pick hasConflicts conflictFiles
          (pre ++ failing :: rest).length (0 + pre.length + 1) rest
      | .error e => .error (handleCherryPickError hasConflicts conflictFiles
          e failing (0 + pre.length) (pre ++ failing :: rest).length)) = _
    rw [hfail, Nat.zero_add]
  have hne : (pre ++ failing :: rest).isEmpty = false := by
    simp
  constructor
  · intro hctrue
    subst hctrue
    unfold cherryPickCommits
    rw [if_neg (by simp [hne]), hloop]
    simp [handleCherryPickError]
  · intro hcfalse
    subst hcfalse
    unfold cherryPickCommits
    rw [if_neg (by simp [hne]), hloop]
    simp [handleCherryPickError]

theorem cherryPick_failure_spec_witness :
    cherryPickCommits
        (fun c => if c.hash = "c2" then .error "merge conflict" else .ok ())
        true ["src/a.ts"]
        ([(⟨"c1", "s1", []⟩ : Commit)] ++ (⟨"c2", "s2", []⟩ : Commit) :: [])
        "review/x" =
      .error (.git (.cherryPickConflict "c2" [] 2 2 1 ["src/a.ts"]) true) := by
  have h := (cherryPick_failure_spec
    (fun c => if c.hash = "c2" then .error "merge conflict" else .ok ())
    true ["src/a.ts"] "review/x"
    [(⟨"c1", "s1", []⟩ : Commit)] (⟨"c2", "s2", []⟩ : Commit) [] "merge conflict"
    (by
      intro c hcm
      rw [List.mem_singleton] at hcm
      subst hcm
      rfl)
    rfl).1 rfl
  exact h

/-! ## GluGraphService (src/services/glu-graph-service.ts) and the
persisted graph shape (src/infrastructure/graph-storage-adapter.ts) -/

/-- Location status: `"unpushed" | "pushed"`. -/
inductive LocationStatus
  | unpushed
  | pushed
deriving DecidableEq

/-- A persisted `BranchLocation` record. -/
structure BranchLocation where
  branch : String
  commitHash : String
  status : LocationStatus
  remote : Option String
  pushedAt : Option String
deriving DecidableEq

/-- One entry of `GraphData.commits`. -/
structure CommitEntry where
  firstSeen : String
  locations : List BranchLocation
deriving DecidableEq

/-- `GraphData`: the `commits` JS object keyed by glu id is modelled as an
insertion-ordered association list (JS objects preserve insertion order
for string keys, and new keys are added at the end). -/
structure GraphData where
  version : String
  commits : List (String × CommitEntry)
deriving DecidableEq

/-- The de-duplication test of `recordCommitLocation`:
`loc.branch === branch && loc.commitHash === commitHash`. -/
def locMatches (branch commitHash : String) (loc : BranchLocation) : Bool :=
  loc.branch = branch && loc.commitHash = commitHash

/-- The push step of `recordCommitLocation` on the entry at the key: push
a new unpushed location unless an identical `(branch, commitHash)` pair is
already present (`locations.find(...)`). -/
def pushLocationIfNew (branch commitHash : String) (e : CommitEntry) :
    CommitEntry :=
  if (e.locations.find? (locMatches branch commitHash)).isSome then e
  else { e with locations :=
    e.locations ++ [⟨branch, commitHash, .unpushed, none, none⟩] }

/-- `GluGraphService.recordCommitLocation` between `storage.load()` and
`storage.save(...)`: create the entry (with `firstSeen` timestamp `now`)
when the key is absent, then conditionally push the location on the entry
stored at that key. -/
def recordCommitLocation (now gluId branch commitHash : String)
    (data : GraphData) : GraphData :=
  let commits0 :=
    if (data.commits.lookup gluId).isNone
    then data.commits ++ [(gluId, ⟨now, []⟩)]
    else data.commits
  { data with commits := commits0.map fun p =>
      if p.1 = gluId then (p.1, pushLocationIfNew branch commitHash p.2)
      else p }

/-- The locations tracked for a glu id (empty when untracked). -/
def locationsOf (data : GraphData) (gluId : String) : List BranchLocation :=
  ((data.commits.lookup gluId).map CommitEntry.locations).getD []

/-- The Tracking-Graph invariant: keys are unique, and no two locations of
the same entry agree on `(branch, commitHash)`. -/
def DistinctLocations (data : GraphData) : Prop :=
  data.commits.Pairwise (fun p q => p.1 ≠ q.1) ∧
  ∀ p ∈ data.commits, p.2.locations.Pairwise
    (fun l₁ l₂ => ¬(l₁.branch = l₂.branch ∧ l₁.commitHash = l₂.commitHash))

/-- One `recordCommitLocation` call, for reasoning about call sequences:
the quadruple is `(now, gluId, branch, commitHash)`. -/
def recordStep (data : GraphData)
    (call : String × String × String × String) : GraphData :=
  recordCommitLocation call.1 call.2.1 call.2.2.1 call.2.2.2 data

theorem lookup_map_key_update (l : List (String × CommitEntry)) (k : String)
    (f : CommitEntry → CommitEntry) :
    (l.map fun p => if p.1 = k then (p.1, f p.2) else p).lookup k =
      (l.lookup k).map f := by
  induction l with
  | nil => rfl
  | cons a l ih =>
    obtain ⟨ak, av⟩ := a
    rw [List.map_cons]
    by_cases ha : ak = k
    · have hif : (if ((ak, av) : String × CommitEntry).1 = k
          then (((ak, av) : String × CommitEntry).1, f ((ak, av) : String × CommitEntry).2)
          else ((ak, av) : String × CommitEntry)) = (ak, f av) := by
        simp [ha]
      have hbeq : (k == ak) = true := by
        simp [ha.symm]
      rw [hif, List.lookup_cons, List.lookup_cons, hbeq]
      rfl
    · have hif : (if ((ak, av) : String × CommitEntry).1 = k
          then (((ak, av) : String × CommitEntry).1, f ((ak, av) : String × CommitEntry).2)
          else ((ak, av) : String × CommitEntry)) = (ak, av) := by
        simp [ha]
      have hbeq : (k == ak) = false := by
        rw [beq_eq_false_iff_ne]
        exact fun he => ha he.symm
      rw [hif, List.lookup_cons, List.lookup_cons, hbeq]
      exact ih

theorem lookup_append_new {l : List (String × CommitEntry)} {k : String}
    (v : CommitEntry) (h : l.lookup k = none) :
    (l ++ [(k, v)]).lookup k = some v := by
  induction l with
  | nil =>
    rw [List.nil_append, List.lookup_cons]
    simp
  | cons a l ih =>
    obtain ⟨ak, av⟩ := a
    rw [List.lookup_cons] at h
    rw [List.cons_append, List.lookup_cons]
    cases hbeq : (k == ak) with
    | true => rw [hbeq] at h; exact absurd h (by simp)
    | false =>
      rw [hbeq] at h
      exact ih h

theorem lookup_none_forall {l : List (String × CommitEntry)} {k : String}
    (h : l.lookup k = none) : ∀ p ∈ l, p.1 ≠ k := by
  induction l with
  | nil => intro p hp; exact absurd hp (List.not_mem_nil p)
  | cons a l ih =>
    obtain ⟨ak, av⟩ := a
    rw [List.lookup_cons] at h
    intro p hp
    cases hbeq : (k == ak) with
    | true => rw [hbeq] at h; exact absurd h (by simp)
    | false =>
      rw [hbeq] at h
      rcases List.mem_cons.mp hp with rfl | hp
      · have hne : k ≠ ak := beq_eq_false_iff_ne.mp hbeq
        exact fun he => hne he.symm
      · exact ih h p hp

theorem update_fst (gluId branch commitHash : String)
    (p : String × CommitEntry) :
    ((if p.1 = gluId then (p.1, pushLocationIfNew branch commitHash p.2)
      else p) : String × CommitEntry).1 = p.1 := by
  by_cases hp : p.1 = gluId <;> simp [hp]

theorem recordCommitLocation_locations (now gluId branch commitHash : String)
    (data : GraphData) :
    locationsOf (recordCommitLocation now gluId branch commitHash data) gluId =
      if ((locationsOf data gluId).find? (locMatches branch commitHash)).isSome
      then locationsOf data gluId
      else locationsOf data gluId ++
        [⟨branch, commitHash, .unpushed, none, none⟩] := by
  cases hl : data.commits.lookup gluId with
  | none =>
    have h1 : (recordCommitLocation now gluId branch commitHash data).commits =
        (data.commits ++ [((gluId, ⟨now, []⟩) : String × CommitEntry)]).map
          fun (p : String × CommitEntry) =>
            if p.1 = gluId then (p.1, pushLocationIfNew branch commitHash p.2)
            else p := by
      unfold recordCommitLocation
      rw [hl]
      rfl
    unfold locationsOf
    rw [h1, lookup_map_key_update, lookup_append_new _ hl, hl]
    simp only [Option.map_some', Option.getD_some, Option.map_none',
      Option.getD_none]
    have hfe : (([] : List BranchLocation).find?
        (locMatches branch commitHash)).isSome = false := rfl
    rw [hfe]
    have he : pushLocationIfNew branch commitHash ⟨now, []⟩ =
        ⟨now, [] ++ [⟨branch, commitHash, .unpushed, none, none⟩]⟩ := by
      unfold pushLocationIfNew
      rw [if_neg (by rw [hfe]; exact Bool.false_ne_true)]
    rw [he]
    simp
  | some e =>
    have h1 : (recordCommitLocation now gluId branch commitHash data).commits =
        data.commits.map fun (p : String × CommitEntry) =>
          if p.1 = gluId then (p.1, pushLocationIfNew branch commitHash p.2)
          else p := by
      unfold recordCommitLocation
      rw [hl]
      rfl
    unfold locationsOf
    rw [h1, lookup_map_key_update, hl]
    simp only [Option.map_some', Option.getD_some]
    by_cases hf : (e.locations.find? (locMatches branch commitHash)).isSome
    · rw [if_pos hf]
      have he : pushLocationIfNew branch commitHash e = e := by
        unfold pushLocationIfNew
        rw [if_pos hf]
      rw [he]
    · rw [if_neg hf]
      have he : pushLocationIfNew branch commitHash e =
          { e with locations := e.locations ++
            [⟨branch, commitHash, .unpushed, none, none⟩] } := by
        unfold pushLocationIfNew
        rw [if_neg hf]
      rw [he]

theorem pushLocationIfNew_pairwise {branch commitHash : String}
    {e : CommitEntry}
    (h : e.locations.Pairwise
      (fun l₁ l₂ => ¬(l₁.branch = l₂.branch ∧ l₁.commitHash = l₂.commitHash))) :
    (pushLocationIfNew branch commitHash e).locations.Pairwise
      (fun l₁ l₂ => ¬(l₁.branch = l₂.branch ∧ l₁.commitHash = l₂.commitHash)) := by
  by_cases hf : (e.locations.find? (locMatches branch commitHash)).isSome
  · have he : pushLocationIfNew branch commitHash e = e := by
      unfold pushLocationIfNew
      rw [if_pos hf]
    rw [he]
    exact h
  · have he : pushLocationIfNew branch commitHash e =
        { e with locations := e.locations ++
          [⟨branch, commitHash, .unpushed, none, none⟩] } := by
      unfold pushLocationIfNew
      rw [if_neg hf]
    rw [he]
    show (e.locations ++
      [(⟨branch, commitHash, .unpushed, none, none⟩ : BranchLocation)]).Pairwise
      (fun l₁ l₂ => ¬(l₁.branch = l₂.branch ∧ l₁.commitHash = l₂.commitHash))
    rw [List.pairwise_append]
    refine ⟨h, by simp, ?_⟩
    intro l1 hl1 l2 hl2
    rw [List.mem_singleton] at hl2
    subst hl2
    have hnone : e.locations.find? (locMatches branch commitHash) = none := by
      cases hfind : e.locations.find? (locMatches branch commitHash) with
      | none => rfl
      | some x => rw [hfind] at hf; exact absurd rfl hf
    have hnm := List.find?_eq_none.mp hnone l1 hl1
    intro hcon
    apply hnm
    simp [locMatches, hcon.1, hcon.2]

theorem record_preserves_distinct (now gluId branch commitHash : String)
    {data : GraphData} (h : DistinctLocations data) :
    DistinctLocations (recordCommitLocation now gluId branch commitHash data) := by
  obtain ⟨hkeys, hlocs⟩ := h
  have hkeys0 : (if (data.commits.lookup gluId).isNone
      then data.commits ++ [((gluId, ⟨now, []⟩) : String × CommitEntry)]
      else data.commits).Pairwise (fun p q => p.1 ≠ q.1) := by
    cases hl : data.commits.lookup gluId with
    | none =>
      simp only [hl, Option.isNone_none, if_true]
      rw [List.pairwise_append]
      refine ⟨hkeys, by simp, ?_⟩
      intro p hp q hq
      rw [List.mem_singleton] at hq
      subst hq
      exact lookup_none_forall hl p hp
    | some e =>
      simp only [hl, Option.isNone_some, if_false]
      exact hkeys
  have hlocs0 : ∀ p ∈ (if (data.commits.lookup gluId).isNone
      then data.commits ++ [((gluId, ⟨now, []⟩) : String × CommitEntry)]
      else data.commits), p.2.locations.Pairwise
      (fun l₁ l₂ => ¬(l₁.branch = l₂.branch ∧ l₁.commitHash = l₂.commitHash)) := by
    cases hl : data.commits.lookup gluId with
    | none =>
      simp only [hl, Option.isNone_none, if_true]
      intro p hp
      rcases List.mem_append.mp hp with hp | hp
      · exact hlocs p hp
      · rw [List.mem_singleton] at hp
        subst hp
        simp
    | some e =>
      simp only [hl, Option.isNone_some, if_false]
      exact hlocs
  refine ⟨?_, ?_⟩
  · show ((if (data.commits.lookup gluId).isNone
      then data.commits ++ [((gluId, ⟨now, []⟩) : String × CommitEntry)]
      else data.commits).map fun (p : String × CommitEntry) =>
        if p.1 = gluId then (p.1, pushLocationIfNew branch commitHash p.2)
        else p).Pairwise (fun p q => p.1 ≠ q.1)
    rw [List.pairwise_map]
    apply hkeys0.imp
    intro a b hab
    rw [update_fst, update_fst]
    exact hab
  · intro p hp
    have hp2 : p ∈ (if (data.commits.lookup gluId).isNone
        then data.commits ++ [((gluId, ⟨now, []⟩) : String × CommitEntry)]
        else data.commits).map fun (q : String × CommitEntry) =>
          if q.1 = gluId then (q.1, pushLocationIfNew branch commitHash q.2)
          else q := hp
    rw [List.mem_map] at hp2
    obtain ⟨q, hq, rfl⟩ := hp2
    by_cases hqk : q.1 = gluId
    · rw [if_pos hqk]
      exact pushLocationIfNew_pairwise (hlocs0 q hq)
    · rw [if_neg hqk]
      exact hlocs0 q hq

theorem records_preserve_distinct
    (calls : List (String × String × String × String)) :
    ∀ data, DistinctLocations data →
      DistinctLocations (calls.foldl recordStep data) := by
  induction calls with
  | nil => intro data h; exact h
  | cons c calls ih =>
    intro data h
    exact ih _ (record_preserves_distinct c.1 c.2.1 c.2.2.1 c.2.2.2 h)

theorem locMatches_exists_iff (locs : List BranchLocation)
    (branch commitHash : String) :
    (locs.find? (locMatches branch commitHash)).isSome = true ↔
      ∃ loc ∈ locs, loc.branch = branch ∧ loc.commitHash = commitHash := by
  rw [List.find?_isSome]
  constructor
  · rintro ⟨x, hx, hm⟩
    simp [locMatches] at hm
    exact ⟨x, hx, hm⟩
  · rintro ⟨x, hx, hm⟩
    exact ⟨x, hx, by simp [locMatches, hm.1, hm.2]⟩

/-- C1: `recordCommitLocation` appends a new unpushed Location unless an
identical `(branch, hash)` pair is already recorded for that PID —
de-duplication is by the exact pair, so the same branch with a different
hash is appended and the earlier Locations are all retained — and any
sequence of `recordCommitLocation` calls preserves the invariant that no
two Locations of the graph agree on `(PID, branch, hash)`. -/
theorem recordCommitLocation_spec (now gluId branch commitHash : String)
    (data : GraphData) :
    ((∃ loc ∈ locationsOf data gluId,
        loc.branch = branch ∧ loc.commitHash = commitHash) →
      locationsOf (recordCommitLocation now gluId branch commitHash data)
        gluId = locationsOf data gluId) ∧
    ((¬∃ loc ∈ locationsOf data gluId,
        loc.branch = branch ∧ loc.commitHash = commitHash) →
      locationsOf (recordCommitLocation now gluId branch commitHash data)
        gluId = locationsOf data gluId ++
          [⟨branch, commitHash, .unpushed, none, none⟩]) ∧
    (DistinctLocations data →
      DistinctLocations (recordCommitLocation now gluId branch commitHash data)) ∧
    (∀ calls : List (String × String × String × String),
      DistinctLocations data →
      DistinctLocations (calls.foldl recordStep data)) := by
  refine ⟨?_, ?_, ?_, ?_⟩
  · intro hex
    rw [recordCommitLocation_locations,
      if_pos ((locMatches_exists_iff _ _ _).mpr hex)]
  · intro hex
    have hf : ((locationsOf data gluId).find?
        (locMatches branch commitHash)).isSome = false := by
      cases hb : ((locationsOf data gluId).find?
          (locMatches branch commitHash)).isSome with
      | false => rfl
      | true => exact absurd ((locMatches_exists_iff _ _ _).mp hb) hex
    rw [recordCommitLocation_locations, if_neg (by rw [hf]; exact Bool.false_ne_true)]
  · exact fun hd => record_preserves_distinct now gluId branch commitHash hd
  · exact fun calls hd => records_preserve_distinct calls data hd

/-- Concrete graph used to witness the record spec: one PID tracked on
`main` at hash `h1`. -/
def graphW1 : GraphData :=
  ⟨"1.0.0", [("glu_1", ⟨"t0", [⟨"main", "h1", .unpushed, none, none⟩]⟩)]⟩

theorem recordCommitLocation_spec_witness :
    locationsOf (recordCommitLocation "t1" "glu_1" "main" "h2" graphW1)
        "glu_1" =
      [⟨"main", "h1", .unpushed, none, none⟩,
       ⟨"main", "h2", .unpushed, none, none⟩] ∧
    DistinctLocations
      (recordCommitLocation "t1" "glu_1" "main" "h2" graphW1) := by
  have h := recordCommitLocation_spec "t1" "glu_1" "main" "h2" graphW1
  constructor
  · rw [h.2.1 (by decide)]
    decide
  · exact h.2.2.1 (by constructor <;> decide)

/-- One iteration of the `for (const gluId in data.commits)` loop of
`GluGraphService.pruneDeletedBranches`: keep only locations whose branch is
in `existingBranches` (`branchSet.has`), count the removed ones (the
filter callback increments `pruneCount` for every rejected location), and
drop the entry (`delete data.commits[gluId]`) when no location is left. -/
def pruneStep (existingBranches : List String)
    (acc : List (String × CommitEntry) × Nat) (p : String × CommitEntry) :
    List (String × CommitEntry) × Nat :=
  let kept := p.2.locations.filter fun loc =>
    existingBranches.contains loc.branch
  let removed := (p.2.locations.filter fun loc =>
    !(existingBranches.contains loc.branch)).length
  if kept.isEmpty then (acc.1, acc.2 + removed)
  else (acc.1 ++ [(p.1, { p.2 with locations := kept })], acc.2 + removed)

/-- `GluGraphService.pruneDeletedBranches` between `storage.load()` and
`storage.save(...)`: returns the pruned graph and the removed-location
count. -/
def pruneDeletedBranches (existingBranches : List String)
    (data : GraphData) : GraphData × Nat :=
  let r := data.commits.foldl (pruneStep existingBranches) ([], 0)
  ({ data with commits := r.1 }, r.2)

/-- Per-entry effect of pruning, in the words of the spec: keep only the
Locations on existing branches, unchanged and in order, and delete the PID
entry when none remain. -/
def pruneEntry (existingBranches : List String)
    (p : String × CommitEntry) : Option (String × CommitEntry) :=
  let kept := p.2.locations.filter fun loc =>
    existingBranches.contains loc.branch
  if kept.isEmpty then none else some (p.1, { p.2 with locations := kept })

theorem pruneStep_eq (existing : List String)
    (acc : List (String × CommitEntry)) (n : Nat) (p : String × CommitEntry) :
    pruneStep existing (acc, n) p =
      (acc ++ (pruneEntry existing p).toList,
       n + ((p.2.locations.filter fun loc =>
         !(existing.contains loc.branch)).length)) := by
  simp only [pruneStep, pruneEntry]
  by_cases hk : (p.2.locations.filter fun loc =>
      existing.contains loc.branch).isEmpty
  · rw [if_pos hk, if_pos hk]
    simp
  · rw [if_neg hk, if_neg hk]
    simp

theorem pruneStep_foldl (existing : List String)
    (l : List (String × CommitEntry)) :
    ∀ (acc : List (String × CommitEntry)) (n : Nat),
      l.foldl (pruneStep existing) (acc, n) =
        (acc ++ l.filterMap (pruneEntry existing),
         n + (l.map fun p => (p.2.locations.filter fun loc =>
           !(existing.contains loc.branch)).length).sum) := by
  induction l with
  | nil => intro acc n; simp
  | cons p l ih =>
    intro acc n
    rw [List.foldl_cons, pruneStep_eq, ih, List.filterMap_cons,
      List.map_cons, List.sum_cons]
    cases hpe : pruneEntry existing p with
    | none =>
      simp only [hpe, Option.toList_none, List.append_nil]
      rw [Prod.mk.injEq]
      exact ⟨rfl, by omega⟩
    | some q =>
      simp only [hpe, Option.toList_some]
      rw [Prod.mk.injEq]
      exact ⟨by simp, by omega⟩

/-- C9: `pruneDeletedBranches` removes exactly the Locations whose branch
is absent from the given list (each entry keeps its on-branch Locations
unchanged and in order, and a PID entry left with zero Locations is
deleted), returns the removed-Location count, and afterwards no Location
references a branch outside the list and no PID maps to an empty Location
list. -/
theorem pruneDeletedBranches_spec (existing : List String)
    (data : GraphData) :
    (pruneDeletedBranches existing data).1.commits =
      data.commits.filterMap (pruneEntry existing) ∧
    (pruneDeletedBranches existing data).2 =
      (data.commits.map fun p => (p.2.locations.filter fun loc =>
        !(existing.contains loc.branch)).length).sum ∧
    ∀ p ∈ (pruneDeletedBranches existing data).1.commits,
      p.2.locations ≠ [] ∧
      ∀ loc ∈ p.2.locations, existing.contains loc.branch = true := by
  have hf := pruneStep_foldl existing data.commits [] 0
  have h1 : (pruneDeletedBranches existing data).1.commits =
      data.commits.filterMap (pruneEntry existing) := by
    unfold pruneDeletedBranches
    rw [hf]
    simp
  have h2 : (pruneDeletedBranches existing data).2 =
      (data.commits.map fun p => (p.2.locations.filter fun loc =>
        !(existing.contains loc.branch)).length).sum := by
    unfold pruneDeletedBranches
    rw [hf]
    simp
  refine ⟨h1, h2, ?_⟩
  intro p hp
  rw [h1, List.mem_filterMap] at hp
  obtain ⟨q, hq, hpe⟩ := hp
  by_cases hk : (q.2.locations.filter fun loc =>
      existing.contains loc.branch).isEmpty
  · exfalso
    have : pruneEntry existing q = none := by
      unfold pruneEntry
      rw [if_pos hk]
    rw [this] at hpe
    exact Option.noConfusion hpe
  · have hsome : pruneEntry existing q =
        some (q.1, { q.2 with locations :=
          q.2.locations.filter (fun loc => existing.contains loc.branch) }) := by
      unfold pruneEntry
      rw [if_neg hk]
    rw [hsome] at hpe
    have hpq := Option.some.inj hpe
    rw [← hpq]
    constructor
    · show q.2.locations.filter (fun loc => existing.contains loc.branch) ≠ []
      intro hnil
      apply hk
      rw [List.isEmpty_iff]
      exact hnil
    · intro loc hloc
      have := List.mem_filter.mp hloc
      exact this.2

/-- Concrete graph used to witness the prune spec: `glu_1` is tracked on
`main` and on `review/a`, `glu_2` only on the deleted branch `review/b`. -/
def graphW2 : GraphData :=
  ⟨"1.0.0",
   [("glu_1", ⟨"t0", [⟨"main", "h1", .unpushed, none, none⟩,
                      ⟨"review/a", "h2", .unpushed, none, none⟩]⟩),
    ("glu_2", ⟨"t1", [⟨"review/b", "h3", .unpushed, none, none⟩]⟩)]⟩

theorem pruneDeletedBranches_spec_witness :
    (pruneDeletedBranches ["main"] graphW2).2 = 2 ∧
    ((("glu_1" : String),
        (⟨"t0", [⟨"main", "h1", .unpushed, none, none⟩]⟩ : CommitEntry)).2.locations ≠ [] ∧
      ∀ loc ∈ ((("glu_1" : String),
        (⟨"t0", [⟨"main", "h1", .unpushed, none, none⟩]⟩ : CommitEntry)).2.locations),
        (["main"] : List String).contains loc.branch = true) := by
  have h := pruneDeletedBranches_spec ["main"] graphW2
  refine ⟨?_, h.2.2 _ ?_⟩
  · rw [h.2.1]
    decide
  · rw [h.1]
    decide

/-! ## RequestReviewUseCase rollback
(src/use-cases/request-review-use-case.ts, catch block of `execute`) -/

/-- What the catch block produces: the error finally thrown to the caller
and whether the checkout-original-branch step ran. -/
structure RollbackOutcome where
  thrown : String
  checkoutRun : Bool
deriving DecidableEq

/-- The catch block of `RequestReviewUseCase.execute`. Each rollback
service call is modelled by its `Except` outcome. `abortCherryPick()`,
`checkout(originalBranch)` and `deleteBranch(tempBranch)` are each wrapped
in `.catch(() => {})`, so their failures are swallowed and their results
do not influence what is thrown; the `getCurrentBranch()` query is not
wrapped, so its failure propagates out of the catch block in place of the
original error. -/
def executeRollback (originalError tempBranch origBranch : String)
    (abortRes : Except String Unit) (curRes : Except String String)
    (checkoutRes delRes : Except String Unit) : RollbackOutcome :=
  match curRes with
  | .error e => ⟨e, false⟩
  | .ok current => ⟨originalError, current = tempBranch⟩

/-- C6 counterexample: when the current-branch query fails during
rollback, its error is thrown in place of the original error, so rollback
failures are not always swallowed. -/
theorem executeRollback_counterexample :
    (executeRollback "original error" "glu/tmp/review" "main"
        (.ok ()) (.error "git status failed") (.ok ()) (.ok ())).thrown ≠
      "original error" := by
  decide

/-- C6 (amended): provided the current-branch query during rollback
succeeds, the rollback re-raises exactly the original error — failures of
the abort, checkout and delete steps are swallowed and never substituted —
and the original branch is checked out exactly when the temp staging
branch is the current branch; if the current-branch query itself fails,
its error propagates in place of the original error. -/
theorem executeRollback_spec (originalError tempBranch origBranch : String)
    (abortRes checkoutRes delRes : Except String Unit) :
    (∀ current,
      (executeRollback originalError tempBranch origBranch abortRes
        (.ok current) checkoutRes delRes).thrown = originalError ∧
      ((executeRollback originalError tempBranch origBranch abortRes
        (.ok current) checkoutRes delRes).checkoutRun = true ↔
          current = tempBranch)) ∧
    (∀ e, (executeRollback originalError tempBranch origBranch abortRes
      (.error e) checkoutRes delRes).thrown = e) := by
  constructor
  · intro current
    constructor
    · rfl
    · simp [executeRollback]
  · intro e
    rfl

theorem executeRollback_spec_witness :
    (executeRollback "boom" "glu/tmp/review" "main"
        (.error "abort failed") (.ok "glu/tmp/review")
        (.error "checkout failed") (.error "delete failed")).thrown = "boom" ∧
    (executeRollback "boom" "glu/tmp/review" "main"
        (.error "abort failed") (.ok "glu/tmp/review")
        (.error "checkout failed") (.error "delete failed")).checkoutRun = true := by
  have h := (executeRollback_spec "boom" "glu/tmp/review" "main"
    (.error "abort failed") (.error "checkout failed")
    (.error "delete failed")).1 "glu/tmp/review"
  exact ⟨h.1, h.2.mpr rfl⟩

/-! ## FileSystemGraphStorage (src/infrastructure/graph-storage-adapter.ts) -/

/-- JSON values as produced by `JSON.parse`. -/
inductive Json
  | null
  | bool (b : Bool)
  | num (n : Int)
  | str (s : String)
  | arr (items : List Json)
  | obj (fields : List (String × Json))

/-- JS `typeof x === "object"`: true for objects, arrays and `null`. -/
def jsTypeofObject : Json → Bool
  | .obj _ => true
  | .arr _ => true
  | .null => true
  | _ => false

/-- JS `x === null`. -/
def isNullJson : Json → Bool
  | .null => true
  | _ => false

/-- JS property access `x.key` as used by the validator: the field of an
object, otherwise `undefined` (`none`). -/
def jsGet : Json → String → Option Json
  | .obj fields, key => fields.lookup key
  | _, _ => none

/-- JS `typeof x === "string"` on a possibly-`undefined` value. -/
def jsTypeofString : Option Json → Bool
  | some (.str _) => true
  | _ => false

/-- JS `typeof x === "object"` on a possibly-`undefined` value
(`typeof undefined` is `"undefined"`). -/
def jsTypeofObjectOpt : Option Json → Bool
  | some v => jsTypeofObject v
  | none => false

/-- JS `x === null` on a possibly-`undefined` value. -/
def jsIsNullOpt : Option Json → Bool
  | some v => isNullJson v
  | none => false

/-- `FileSystemGraphStorage.isValidGraphData`: the parsed value must be a
non-null object whose `version` is a string and whose `commits` is a
non-null object. -/
def isValidGraphData (data : Json) : Bool :=
  if !(jsTypeofObject data) || isNullJson data then false
  else if !(jsTypeofString (jsGet data "version")) then false
  else if !(jsTypeofObjectOpt (jsGet data "commits")) ||
      jsIsNullOpt (jsGet data "commits") then false
  else true

/-- The empty graph (`version "1.0.0"`, no commits) written by
`FileSystemGraphStorage.initialize`. -/
def emptyGraphJson : Json :=
  .obj [("version", .str "1.0.0"), ("commits", .obj [])]

/-- `FileSystemGraphStorage.initialize` (renamed here): ensure the `.glu`
directory, serialize the empty graph with `stringify` (`JSON.stringify`)
and write it, returning the empty graph and the new file contents. -/
def initGraph (stringify : Json → String) : Json × Option String :=
  (emptyGraphJson, some (stringify emptyGraphJson))

/-- The try-block of `FileSystemGraphStorage.load`: read the file (a
missing file throws `ENOENT`), `JSON.parse` the contents (`parse`
returning `none` models the parse exception), then shape-validate
(throwing `Invalid graph data format`). -/
def loadTry (parse : String → Option Json) (file : Option String) :
    Except String Json :=
  match file with
  | none => .error "ENOENT"
  | some content =>
    match parse content with
    | none => .error "JSON.parse threw"
    | some parsed =>
      if isValidGraphData parsed then .ok parsed
      else .error "Invalid graph data format"

/-- `FileSystemGraphStorage.load`: any error from the try-block is caught;
the handler takes a timestamped backup only when the file exists
(`exists()` and `createBackup()` swallow their own errors) and
reinitializes. Returns the result, the file contents afterwards, and
whether a backup was taken. -/
def load (parse : String → Option Json) (stringify : Json → String)
    (file : Option String) : Except String Json × Option String × Bool :=
  match loadTry parse file with
  | .ok g => (.ok g, file, false)
  | .error _ =>
    let backupTaken := file.isSome
    let r := initGraph stringify
    (.ok r.1, r.2, backupTaken)

/-- C7: for every state of the persisted graph file, `load()` never raises:
a missing file reinitializes to the empty graph with no backup; contents
that fail to parse, or parse to a shape-invalid value, take a backup (a
corrupt file exists) and reinitialize; a valid file is returned unchanged
with no backup and no rewrite. -/
theorem load_self_heals (parse : String → Option Json)
    (stringify : Json → String) (file : Option String) :
    (∃ g, (load parse stringify file).1 = .ok g) ∧
    (file = none →
      load parse stringify file =
        (.ok emptyGraphJson, some (stringify emptyGraphJson), false)) ∧
    (∀ s, file = some s → parse s = none →
      load parse stringify file =
        (.ok emptyGraphJson, some (stringify emptyGraphJson), true)) ∧
    (∀ s j, file = some s → parse s = some j → isValidGraphData j = false →
      load parse stringify file =
        (.ok emptyGraphJson, some (stringify emptyGraphJson), true)) ∧
    (∀ s j, file = some s → parse s = some j → isValidGraphData j = true →
      load parse stringify file = (.ok j, file, false)) := by
  cases file with
  | none =>
    refine ⟨⟨emptyGraphJson, rfl⟩, fun _ => rfl, ?_, ?_, ?_⟩
    · intro s hs
      exact absurd hs (by simp)
    · intro s j hs
      exact absurd hs (by simp)
    · intro s j hs
      exact absurd hs (by simp)
  | some s =>
    cases hp : parse s with
    | none =>
      have hl : load parse stringify (some s) =
          (.ok emptyGraphJson, some (stringify emptyGraphJson), true) := by
        unfold load loadTry
        simp [hp, initGraph]
      refine ⟨⟨emptyGraphJson, by rw [hl]⟩, by simp, fun t ht hpt => hl, ?_, ?_⟩
      · intro t j ht hpt hv
        have hst := Option.some.inj ht
        subst hst
        rw [hp] at hpt
        exact absurd hpt (by simp)
      · intro t j ht hpt hv
        have hst := Option.some.inj ht
        subst hst
        rw [hp] at hpt
        exact absurd hpt (by simp)
    | some j =>
      cases hv : isValidGraphData j with
      | true =>
        have hl : load parse stringify (some s) = (.ok j, some s, false) := by
          unfold load loadTry
          simp [hp, hv, initGraph]
        refine ⟨⟨j, by rw [hl]⟩, by simp, ?_, ?_, ?_⟩
        · intro t ht hpt
          have hst := Option.some.inj ht
          subst hst
          rw [hp] at hpt
          exact absurd hpt (by simp)
        · intro t j2 ht hpt hv2
          have hst := Option.some.inj ht
          subst hst
          rw [hp] at hpt
          have hj := Option.some.inj hpt
          subst hj
          rw [hv] at hv2
          exact absurd hv2 (by simp)
        · intro t j2 ht hpt hv2
          have hst := Option.some.inj ht
          subst hst
          rw [hp] at hpt
          have hj := Option.some.inj hpt
          subst hj
          exact hl
      | false =>
        have hl : load parse stringify (some s) =
            (.ok emptyGraphJson, some (stringify emptyGraphJson), true) := by
          unfold load loadTry
          simp [hp, hv, initGraph]
        refine ⟨⟨emptyGraphJson, by rw [hl]⟩, by simp, ?_, ?_, ?_⟩
        · intro t ht hpt
          have hst := Option.some.inj ht
          subst hst
          rw [hp] at hpt
          exact absurd hpt (by simp)
        · intro t j2 ht hpt hv2
          exact hl
        · intro t j2 ht hpt hv2
          have hst := Option.some.inj ht
          subst hst
          rw [hp] at hpt
          have hj := Option.some.inj hpt
          subst hj
          rw [hv] at hv2
          exact absurd hv2 (by simp)

theorem load_self_heals_witness :
    load (fun _ => none) (fun _ => "EMPTY") (some "garbage") =
      (.ok emptyGraphJson, some "EMPTY", true) :=
  (load_self_heals (fun _ => none) (fun _ => "EMPTY")
    (some "garbage")).2.2.1 "garbage" rfl rfl
